import Mathlib

/-!
Shallow embedding of the 2048 game core (`src/lib.rs` of ashfordneil/2048):
the board data model, the collapse/merge move engine, the random spawner,
and the incremental terminal renderer, together with theorems settling the
behavioural properties stated in the specification.

The file is organised as definitions (translated from the Rust source)
followed by the theorems about them.
-/

set_option autoImplicit false

namespace Play2048

/-- A number to go into a single square on the 2048 board; the `u8` exponent
`e` of the Rust `Square(u8)`, displayed as `2^(e+1)`. -/
abbrev Square := Nat

/-- `Square::inc` — the exponent bump produced by a merge. -/
def Square.inc (s : Square) : Square := s + 1

/-- A whole board of 2048, `rows y x` corresponding to the Rust
`rows[y][x]` of `rows: [[Option<Square>; 4]; 4]`. -/
structure Board where
  rows : Fin 4 → Fin 4 → Option Square

/-- A user move that can be applied to a board (Rust `enum Move`). -/
inductive Move where
  | Up
  | Down
  | Left
  | Right
deriving DecidableEq

/-- The sixteen cell coordinates as `(y, x)` pairs, row-major. -/
def cellList : List (Fin 4 × Fin 4) :=
  [(0, 0), (0, 1), (0, 2), (0, 3),
   (1, 0), (1, 1), (1, 2), (1, 3),
   (2, 0), (2, 1), (2, 2), (2, 3),
   (3, 0), (3, 1), (3, 2), (3, 3)]

/-- Structural board equality as a boolean over the sixteen cells; this is
the `derive(PartialEq)` structural equality of the Rust `Board`, made
kernel-computable. -/
def Board.cellsEq (a b : Board) : Bool :=
  cellList.all fun p => decide (a.rows p.1 p.2 = b.rows p.1 p.2)

instance : DecidableEq Board := fun a b =>
  decidable_of_iff (Board.cellsEq a b = true) (by
    constructor
    · intro h
      cases a; cases b
      simp only [Board.cellsEq, cellList, List.all_cons, List.all_nil, Bool.and_eq_true,
        decide_eq_true_eq, Bool.and_true] at h
      obtain ⟨h00, h01, h02, h03, h10, h11, h12, h13, h20, h21, h22, h23, h30, h31, h32,
        h33⟩ := h
      simp only [Board.mk.injEq]
      funext y x
      fin_cases y <;> fin_cases x <;> assumption
    · rintro rfl
      simp [Board.cellsEq])

/-- `Board::new` — the empty board. -/
def Board.new : Board := ⟨fun _ _ => none⟩

/-- Single-cell write `rows[y][x] = v` as a functional update. -/
def Board.setCell (b : Board) (x y : Fin 4) (v : Option Square) : Board :=
  ⟨fun y' x' => if y' = y ∧ x' = x then v else b.rows y' x'⟩

/-- `Board::coord_iter` — the travel-order coordinates `(x, y)` of the line
at `offset` for a given direction. -/
def Board.coord_iter (direction : Move) (offset : Fin 4) : List (Fin 4 × Fin 4) :=
  let steps : List (Fin 4) :=
    match direction with
    | .Up | .Left => [0, 1, 2, 3]
    | .Down | .Right => [3, 2, 1, 0]
  steps.map fun i =>
    match direction with
    | .Up | .Down => (offset, i)
    | .Left | .Right => (i, offset)

/-- The state-passing form of the Rust `Collapser` iterator: `last_seen` is
the pending square, the list is what remains of the inner iterator.  Each
emitted head corresponds to one `Some` returned by the Rust `next()`. -/
def collapseList : Option Square → List Square → List Square
  | some last, [] => [last]
  | some last, x :: xs =>
      if x = last then Square.inc x :: collapseList none xs
      else last :: collapseList (some x) xs
  | none, [] => []
  | none, x :: xs => collapseList (some x) xs

/-- `Board::collapse` — drop the empty cells of a line, then run the
`Collapser` scan over the occupied squares. -/
def Board.collapse (input : List (Option Square)) : List Square :=
  collapseList none (input.filterMap id)

/-- The cells of the line at `offset` read in travel order
(`coord_iter(direction, offset).map(|(x, y)| self.rows[y][x])`). -/
def Board.readLine (b : Board) (direction : Move) (offset : Fin 4) : List (Option Square) :=
  (Board.coord_iter direction offset).map fun p => b.rows p.2 p.1

/-- The write-back loop of `apply_move`: write each collapsed square at the
next travel-order coordinate; `none` models the
`expect("Too many cells post-collapse")` panic when the coordinates run out. -/
def Board.writeCells : Board → List (Fin 4 × Fin 4) → List Square → Option Board
  | b, _, [] => some b
  | _, [], _ :: _ => none
  | b, (x, y) :: rest, c :: cs => Board.writeCells (b.setCell x y (some c)) rest cs

/-- `Board::apply_move` — collapse every line of the board in travel order
into a fresh empty board; `none` models the internal panic. -/
def Board.apply_move (b : Board) (direction : Move) : Option Board :=
  (([0, 1, 2, 3] : List (Fin 4)).foldlM
    (fun acc offset =>
      Board.writeCells acc (Board.coord_iter direction offset)
        (Board.collapse (b.readLine direction offset)))
    Board.new)

/-- Build a board from a row-major list of rows (test scaffolding for the
concrete scenarios of the specification). -/
def Board.ofRows (l : List (List (Option Square))) : Board :=
  ⟨fun y x => ((l.getD y.val []).getD x.val none)⟩

/-- The row `[2, 2, _, _]` (exponent 0 squares), plus an already-packed
bottom row `[2, 4, 2, _]` that a Left move leaves alone. -/
def boardTwoTwo : Board := Board.ofRows
  [[some 0, some 0, none, none],
   [none, none, none, none],
   [none, none, none, none],
   [some 0, some 1, some 0, none]]

/-- The expected result of moving `boardTwoTwo` Left: `[4, _, _, _]` on top,
bottom row untouched. -/
def boardTwoTwoLeft : Board := Board.ofRows
  [[some 1, none, none, none],
   [none, none, none, none],
   [none, none, none, none],
   [some 0, some 1, some 0, none]]

/-- The row `[2, 2, 2, 2]`. -/
def boardFourTwos : Board := Board.ofRows
  [[some 0, some 0, some 0, some 0]]

/-- The expected result of moving `boardFourTwos` Left: `[4, 4, _, _]`. -/
def boardFourTwosLeft : Board := Board.ofRows
  [[some 1, some 1, none, none]]

/-- The row `[2, 4, 2, _]`, which has no adjacent equal pair and is already
slid fully left. -/
def boardNoPair : Board := Board.ofRows
  [[some 0, some 1, some 0, none]]

/-- Overlay a list of coordinate/square entries onto a board by successive
single-cell writes; proof scaffolding describing `apply_move`'s write loop. -/
def Board.overlay : Board → List ((Fin 4 × Fin 4) × Square) → Board
  | b, [] => b
  | b, (p, c) :: rest => Board.overlay (b.setCell p.1 p.2 (some c)) rest

/-- The cells one line of `apply_move` writes: travel-order coordinates
paired with the collapsed squares of that line. -/
def Board.lineEntries (b : Board) (direction : Move) (offset : Fin 4) :
    List ((Fin 4 × Fin 4) × Square) :=
  (Board.coord_iter direction offset).zip (Board.collapse (b.readLine direction offset))

/-- Rotation of the board by 180 degrees. -/
def Board.rotate180 (b : Board) : Board := ⟨fun y x => b.rows y.rev x.rev⟩

/-- 180-degree rotation of an `(x, y)` coordinate. -/
def rotCoord (p : Fin 4 × Fin 4) : Fin 4 × Fin 4 := (p.1.rev, p.2.rev)

/-- The displayed-value sum of a list of squares: each square of exponent
`e` shows `2^(e+1)`. -/
def dispSum (l : List Square) : Nat := (l.map fun s => 2 ^ (s + 1)).sum

/-- The row-major `(x, y)` coordinate enumeration of `add_square`
(`(0..4).flat_map(|y| (0..4).map(move |x| (x, y)))`). -/
def allCoords : List (Fin 4 × Fin 4) :=
  (([0, 1, 2, 3] : List (Fin 4)).flatMap fun y =>
    ([0, 1, 2, 3] : List (Fin 4)).map fun x => ((x, y) : Fin 4 × Fin 4))

/-- The `free_spaces` list of `add_square`: row-major coordinates of the
empty cells. -/
def Board.freeSpaces (b : Board) : List (Fin 4 × Fin 4) :=
  allCoords.filter fun p => (b.rows p.2 p.1).isNone

/-- `Board::add_square`, with the injected randomness made explicit:
`space_choice` is the value `rng.gen_range(0..free_spaces.len())` returned
(in range by the rng contract) and `coin` the boolean `rng.gen()` returned;
`Square(1)` is placed if the coin is true, `Square(0)` otherwise.  A full
board is returned unchanged, as is the (contractually impossible) case of
an out-of-range index. -/
def Board.add_square (b : Board) (space_choice : Nat) (coin : Bool) : Board :=
  if b.freeSpaces.isEmpty then b
  else
    match b.freeSpaces[space_choice]? with
    | some (x, y) => b.setCell x y (some (if coin then 1 else 0))
    | none => b

/-- Number of occupied cells of a board. -/
def Board.occupiedCount (b : Board) : Nat :=
  (cellList.filter fun p => (b.rows p.1 p.2).isSome).length

/-- A completely full board (every cell holds a `2`). -/
def boardFull : Board := ⟨fun _ _ => some 0⟩

/-- A collapse certificate: the input line is partitioned, in order, into
kept single tiles and merged adjacent equal pairs; a merged pair `(a, a)`
contributes the single tile `Square.inc a` to the output.  Merged output
tiles are never inputs of another merge, so such a decomposition witnesses
that no tile participates in two merges. -/
inductive Collapses : List Square → List Square → Prop
  | nil : Collapses [] []
  | keep {l r : List Square} (a : Square) :
      Collapses l r → Collapses (a :: l) (a :: r)
  | merge {l r : List Square} (a : Square) :
      Collapses l r → Collapses (a :: a :: l) (Square.inc a :: r)

/-- A terminal colour as used by the renderer: black or white text, or an
RGB background from the tile palette. -/
inductive TermColor where
  | black
  | white
  | rgb (r g b : Nat)
deriving DecidableEq

/-- One logical terminal-control command queued by the renderer.  The exact
escape-sequence encoding is delegated to the terminal layer; only the
logical operations matter here. -/
inductive Cmd where
  | moveUp (n : Nat)
  | moveDown (n : Nat)
  | moveRight (n : Nat)
  | moveToColumn (n : Nat)
  | setBackgroundColor (c : TermColor)
  | setForegroundColor (c : TermColor)
  | setAttributeBold
  | resetColor
  | write (s : String)
deriving DecidableEq

/-- `Square::color` — the fixed 16-entry palette: RGB background and
whether the square's digits are drawn dark; `none` models the
`unreachable!()` panic for exponents above 15. -/
def Square.color (s : Square) : Option (TermColor × Bool) :=
  match s with
  | 0 => some (.rgb 238 228 218, true)
  | 1 => some (.rgb 237 224 200, true)
  | 2 => some (.rgb 242 177 121, false)
  | 3 => some (.rgb 245 149 99, false)
  | 4 => some (.rgb 246 124 95, false)
  | 5 => some (.rgb 246 94 59, false)
  | 6 => some (.rgb 237 207 114, true)
  | 7 => some (.rgb 237 204 97, false)
  | 8 => some (.rgb 237 200 80, false)
  | 9 => some (.rgb 237 197 63, false)
  | 10 => some (.rgb 237 194 68, false)
  | 11 => some (.rgb 181 134 180, false)
  | 12 => some (.rgb 168 97 171, false)
  | 13 => some (.rgb 160 72 163, false)
  | 14 => some (.rgb 128 0 128, false)
  | 15 => some (.rgb 96 0 70, false)
  | _ => none

/-- Rust's `write!("{:5}", n)` on a natural number: the decimal digits of
`n` right-justified in a field of width at least 5, space-padded on the
left. -/
def format5 (n : Nat) : String :=
  let s := toString n
  String.mk (List.replicate (5 - s.length) ' ') ++ s

/-- `Renderer::draw_cell` — queue the background colour, then black text on
the light backgrounds or bold white text on the saturated ones, write the
displayed value `2 << e` in a 5-wide field, and reset the colour
attributes. -/
def draw_cell (cell : Square) : Option (List Cmd) :=
  cell.color.map fun p =>
    [Cmd.setBackgroundColor p.1] ++
    (if p.2 then [Cmd.setForegroundColor .black]
     else [Cmd.setForegroundColor .white, Cmd.setAttributeBold]) ++
    [Cmd.write (format5 (2 <<< cell)), Cmd.resetColor]

/-- The renderer state: the queued output stream, the recorded terminal
`(columns, rows)`, the terminal row the cursor sits on, and the previous
board snapshot. -/
structure Renderer where
  output : List Cmd
  size : Nat × Nat
  cursor_row : Nat
  old_board : Option Board
deriving DecidableEq

/-- The message of the too-small failure. -/
def tooSmallMsg : String := "Window too small to draw the game board"

/-- The vertical cursor motion of the incremental branch: move up or down
to `screen_row` from `cur`, or nothing when already aligned. -/
def vertCmds (cur screen_row : Nat) : List Cmd :=
  if screen_row < cur then [Cmd.moveUp (cur - screen_row)]
  else if cur < screen_row then [Cmd.moveDown (screen_row - cur)]
  else []

/-- What the incremental branch writes at a changed cell: the new tile's
draw commands, or five blank characters reverting an emptied cell. -/
def cellOutput : Option Square → Option (List Cmd)
  | some c => draw_cell c
  | none => some [Cmd.write "     "]

/-- One step of the incremental redraw loop at cell `p = (row, col)`:
an unchanged cell is skipped outright (zero output); a changed cell moves
the cursor vertically to its row, then to its 5-wide column slot, and
draws. -/
def diffStep (ob b : Board) (st : List Cmd × Nat) (p : Fin 4 × Fin 4) :
    Option (List Cmd × Nat) :=
  if ob.rows p.1 p.2 = b.rows p.1 p.2 then some st
  else
    (cellOutput (b.rows p.1 p.2)).map fun cc =>
      (st.1 ++ vertCmds st.2 p.1.val ++ [Cmd.moveToColumn (5 * p.2.val)] ++ cc,
        p.1.val)

/-- A full-redraw cell: draw the tile or skip five columns. -/
def fullCellCmds : Option Square → Option (List Cmd)
  | some c => draw_cell c
  | none => some [Cmd.moveRight 5]

/-- A full-redraw row: move down one line, return to column 0, then the
four cells. -/
def fullRowCmds (b : Board) (y : Fin 4) : Option (List Cmd) := do
  let c0 ← fullCellCmds (b.rows y 0)
  let c1 ← fullCellCmds (b.rows y 1)
  let c2 ← fullCellCmds (b.rows y 2)
  let c3 ← fullCellCmds (b.rows y 3)
  pure ([Cmd.moveDown 1, Cmd.moveToColumn 0] ++ c0 ++ c1 ++ c2 ++ c3)

/-- `Renderer::draw_board`.  The outer `Option` models the `unreachable!()`
panic of the palette; the `Option String` component is the crossterm error,
`some` on the too-small early return and `none` on success.  Success
appends the emitted commands to `output`, records the final cursor row and
stores the new snapshot; the final `flush` moves no data and is not
modelled as a command. -/
def draw_board (r : Renderer) (b : Board) : Option (Renderer × Option String) :=
  if r.size.1 < 4 * 5 ∨ r.size.2 < 4 then
    some (r, some tooSmallMsg)
  else
    match r.old_board with
    | some ob =>
      (cellList.foldlM (diffStep ob b) (r.output, r.cursor_row)).map fun st =>
        ({ r with output := st.1, cursor_row := st.2, old_board := some b }, none)
    | none => do
      let head := if r.cursor_row ≠ 0 then [Cmd.moveUp r.cursor_row] else []
      let r0 ← fullRowCmds b 0
      let r1 ← fullRowCmds b 1
      let r2 ← fullRowCmds b 2
      let r3 ← fullRowCmds b 3
      let out := r.output ++ head ++ r0 ++ r1 ++ r2 ++ r3
      pure ({ r with output := out, cursor_row := 3, old_board := some b }, none)

/-- Terminal text attributes the renderer touches: background colour,
foreground colour, bold weight. -/
structure Attr where
  background : Option TermColor
  foreground : Option TermColor
  bold : Bool
deriving DecidableEq

/-- The attribute state with no colours set and normal weight. -/
def Attr.cleared : Attr := ⟨none, none, false⟩

/-- Attribute semantics of a command: crossterm's `ResetColor` emits SGR 0,
restoring default colours and weight; movement and text writes leave the
attributes alone. -/
def applyCmd (a : Attr) : Cmd → Attr
  | .setBackgroundColor c => { a with background := some c }
  | .setForegroundColor c => { a with foreground := some c }
  | .setAttributeBold => { a with bold := true }
  | .resetColor => Attr.cleared
  | _ => a

/-- A renderer whose recorded terminal is too small to hold the board. -/
def rendererSmall : Renderer := ⟨[], (10, 2), 0, none⟩

/-- A renderer with an adequate terminal and an empty-board snapshot. -/
def rendererDiff : Renderer := ⟨[], (20, 4), 0, some Board.new⟩

/-- A board holding a single `2` tile in its top-left cell. -/
def boardOneTile : Board := Board.ofRows [[some 0]]

/- ----------------------------------------------------------------- -/
/- Theorems                                                          -/
/- ----------------------------------------------------------------- -/

theorem mem_cellList (y x : Fin 4) : (y, x) ∈ cellList := by
  fin_cases y <;> fin_cases x <;> simp [cellList]

theorem Board.cellsEq_iff {a b : Board} : Board.cellsEq a b = true ↔ a = b := by
  constructor
  · intro h
    cases a; cases b
    simp only [Board.cellsEq, cellList, List.all_cons, List.all_nil, Bool.and_eq_true,
      decide_eq_true_eq, Bool.and_true] at h
    obtain ⟨h00, h01, h02, h03, h10, h11, h12, h13, h20, h21, h22, h23, h30, h31, h32,
      h33⟩ := h
    simp only [Board.mk.injEq]
    funext y x
    fin_cases y <;> fin_cases x <;> assumption
  · rintro rfl
    simp [Board.cellsEq]

theorem Board.eq_of_cellsEq {a b : Board} (h : Board.cellsEq a b = true) : a = b :=
  Board.cellsEq_iff.mp h

/-- Bridge for concrete computations: an optional board is `some b` as soon
as cell-wise comparison against `b` evaluates to `true`. -/
theorem Board.someEq_of_cellsEq {o : Option Board} {b : Board}
    (h : (o.map fun a => Board.cellsEq a b) = some true) : o = some b := by
  cases o with
  | none => simp at h
  | some a =>
    simp only [Option.map_some', Option.some.injEq] at h
    exact congrArg some (Board.eq_of_cellsEq h)

/-- Claim C1: applying `apply_move` with direction Left collapses the row
`[2,2,_,_]` to `[4,_,_,_]`, the row `[2,2,2,2]` to `[4,4,_,_]` (and not
`[8,_,_,_]`), and leaves the pair-free row `[2,4,2,_]` in the same
arrangement, the other rows of the board being unaffected in each case. -/
theorem apply_move_left_scenarios :
    Board.apply_move boardTwoTwo .Left = some boardTwoTwoLeft ∧
    Board.apply_move boardFourTwos .Left = some boardFourTwosLeft ∧
    Board.apply_move boardNoPair .Left = some boardNoPair :=
  ⟨Board.someEq_of_cellsEq (by decide),
   Board.someEq_of_cellsEq (by decide),
   Board.someEq_of_cellsEq (by decide)⟩

/-- Joint induction: the collapser scan, started with or without a pending
square, produces an output covered by a `Collapses` decomposition. -/
theorem collapses_both : ∀ l : List Square,
    (∀ p, Collapses (p :: l) (collapseList (some p) l)) ∧
      Collapses l (collapseList none l) := by
  intro l
  induction l with
  | nil => exact ⟨fun p => .keep p .nil, .nil⟩
  | cons x xs ih =>
    have hsome : ∀ p, Collapses (p :: x :: xs) (collapseList (some p) (x :: xs)) := by
      intro p
      by_cases h : x = p
      · subst h
        rw [collapseList, if_pos rfl]
        exact .merge x ih.2
      · rw [collapseList, if_neg h]
        exact .keep p (ih.1 x)
    exact ⟨hsome, ih.1 x⟩

/-- Claim C2: in a single `apply_move` application no tile produced by a
merge participates in a second merge: every line's collapse admits a
`Collapses` decomposition of the occupied-cell sequence into kept tiles and
disjoint merged pairs, the merged result tiles being outputs only. -/
theorem collapse_no_double_merge :
    ∀ (b : Board) (d : Move) (o : Fin 4),
      Collapses ((b.readLine d o).filterMap id) (Board.collapse (b.readLine d o)) :=
  fun b d o => (collapses_both ((b.readLine d o).filterMap id)).2

/-- Joint induction for the conservation facts: with pending square `p` the
scan's output sums to `2^(p+1)` plus the remaining input's sum and has at
most one more element than the remaining input; with no pending square the
sum is preserved exactly and the length does not grow. -/
theorem collapseList_sum_len : ∀ l : List Square,
    (∀ p, dispSum (collapseList (some p) l) = 2 ^ (p + 1) + dispSum l ∧
        (collapseList (some p) l).length ≤ 1 + l.length) ∧
      (dispSum (collapseList none l) = dispSum l ∧
        (collapseList none l).length ≤ l.length) := by
  intro l
  induction l with
  | nil =>
    constructor
    · intro p
      constructor
      · simp [collapseList, dispSum]
      · simp [collapseList]
    · exact ⟨rfl, Nat.le_refl _⟩
  | cons x xs ih =>
    have hsome : ∀ p, dispSum (collapseList (some p) (x :: xs)) =
        2 ^ (p + 1) + dispSum (x :: xs) ∧
        (collapseList (some p) (x :: xs)).length ≤ 1 + (x :: xs).length := by
      intro p
      by_cases h : x = p
      · subst h
        rw [collapseList, if_pos rfl]
        refine ⟨?_, ?_⟩
        · have hs := ih.2.1
          simp only [dispSum, List.map_cons, List.sum_cons, Square.inc] at hs ⊢
          rw [hs]
          ring
        · have hl := ih.2.2
          simp only [List.length_cons]
          omega
      · rw [collapseList, if_neg h]
        refine ⟨?_, ?_⟩
        · have hs := (ih.1 x).1
          simp only [dispSum, List.map_cons, List.sum_cons] at hs ⊢
          rw [hs]
        · have hl := (ih.1 x).2
          simp only [List.length_cons] at hl ⊢
          omega
    refine ⟨hsome, ?_, ?_⟩
    · have hs := (ih.1 x).1
      show dispSum (collapseList (some x) xs) = dispSum (x :: xs)
      rw [hs]
      simp [dispSum]
    · have hl := (ih.1 x).2
      show (collapseList (some x) xs).length ≤ (x :: xs).length
      simp only [List.length_cons]
      omega

/-- Claim C4, counterexample: collapsing the line `[2, 2, _, _]` performs
one merge of the pair `(2, 2)` into a `4`, and the displayed-value sum is
preserved exactly (4 = 4); it does not increase by the merged value
`v = 2` as the claim states. -/
theorem collapse_sum_not_increasing :
    Board.collapse [some 0, some 0, none, none] = [Square.inc 0] ∧
    dispSum (Board.collapse [some 0, some 0, none, none]) =
      dispSum (([some 0, some 0, none, none] : List (Option Square)).filterMap id) ∧
    dispSum (Board.collapse [some 0, some 0, none, none]) ≠
      dispSum (([some 0, some 0, none, none] : List (Option Square)).filterMap id) + 2 := by
  refine ⟨rfl, rfl, ?_⟩
  decide

/-- Claim C4, amended: for any line fed to the collapse algorithm, the
count of output tiles decreases (via merges) or stays the same, and the
sum of the displayed values `2^(e+1)` is preserved exactly: each merged
pair `(v, v)` is replaced by a single `(2v)`, so the total sum is
unchanged. -/
theorem collapse_conservation :
    ∀ line : List (Option Square),
      (Board.collapse line).length ≤ (line.filterMap id).length ∧
      dispSum (Board.collapse line) = dispSum (line.filterMap id) :=
  fun line =>
    ⟨(collapseList_sum_len (line.filterMap id)).2.2,
     (collapseList_sum_len (line.filterMap id)).2.1⟩

theorem coord_iter_length (d : Move) (o : Fin 4) : (Board.coord_iter d o).length = 4 := by
  cases d <;> rfl

theorem readLine_length (b : Board) (d : Move) (o : Fin 4) : (b.readLine d o).length = 4 := by
  simp [Board.readLine, coord_iter_length]

theorem collapse_line_length_le (b : Board) (d : Move) (o : Fin 4) :
    (Board.collapse (b.readLine d o)).length ≤ ((b.readLine d o).filterMap id).length :=
  (collapseList_sum_len _).2.2

/-- The write-back loop succeeds whenever there are at least as many
coordinates as collapsed cells, and then equals an overlay of the zipped
entries. -/
theorem writeCells_eq_overlay :
    ∀ (cells : List Square) (coords : List (Fin 4 × Fin 4)) (b : Board),
      cells.length ≤ coords.length →
      Board.writeCells b coords cells = some (b.overlay (coords.zip cells)) := by
  intro cells
  induction cells with
  | nil =>
    intro coords b _
    cases coords <;> simp [Board.writeCells, Board.overlay]
  | cons c cs ih =>
    intro coords b h
    cases coords with
    | nil => simp at h
    | cons p rest =>
      obtain ⟨x, y⟩ := p
      show Board.writeCells (b.setCell x y (some c)) rest cs =
        some (Board.overlay (b.setCell x y (some c)) (rest.zip cs))
      exact ih rest _ (by simpa using h)

/-- `apply_move` in closed form: the four lines' entries overlaid on the
empty board. -/
theorem apply_move_eq (b : Board) (d : Move) :
    Board.apply_move b d = some ((((Board.new.overlay (b.lineEntries d 0)).overlay
      (b.lineEntries d 1)).overlay (b.lineEntries d 2)).overlay (b.lineEntries d 3)) := by
  have h : ∀ (acc : Board) (o : Fin 4),
      Board.writeCells acc (Board.coord_iter d o) (Board.collapse (b.readLine d o)) =
        some (acc.overlay (b.lineEntries d o)) := by
    intro acc o
    rw [Board.lineEntries]
    apply writeCells_eq_overlay
    calc (Board.collapse (b.readLine d o)).length
        ≤ ((b.readLine d o).filterMap id).length := collapse_line_length_le b d o
      _ ≤ (b.readLine d o).length := List.length_filterMap_le id _
      _ = (Board.coord_iter d o).length := by
          rw [readLine_length, coord_iter_length]
  simp [Board.apply_move, List.foldlM_cons, List.foldlM_nil, h]

/-- Claim C3: each 4-cell line's collapse is no longer than its
occupied-cell sequence, which itself has at most 4 entries, so the
write-back loop never exhausts the four travel-order coordinates: the
`"Too many cells post-collapse"` abort modelled by `none` is unreachable
and `apply_move` returns a board on every input. -/
theorem apply_move_never_panics :
    ∀ (b : Board) (d : Move),
      (∀ o : Fin 4,
        (Board.collapse (b.readLine d o)).length ≤
          ((b.readLine d o).filterMap id).length ∧
        ((b.readLine d o).filterMap id).length ≤ 4) ∧
      (Board.apply_move b d).isSome := by
  intro b d
  refine ⟨fun o => ⟨collapse_line_length_le b d o, ?_⟩, ?_⟩
  · have h := List.length_filterMap_le id (b.readLine d o)
    rw [readLine_length] at h
    exact h
  · rw [apply_move_eq]
    rfl

theorem Board.extCells {a b : Board} (h : ∀ y x, a.rows y x = b.rows y x) : a = b := by
  cases a; cases b
  simp only [Board.mk.injEq]
  funext y x
  exact h y x

theorem rev_eq_comm {a b : Fin 4} : a.rev = b ↔ a = b.rev := by
  constructor <;> rintro rfl <;> simp [Fin.rev_rev]

theorem rev_zero : (0 : Fin 4).rev = 3 := rfl

theorem rev_one : (1 : Fin 4).rev = 2 := rfl

theorem rev_two : (2 : Fin 4).rev = 1 := rfl

theorem rev_three : (3 : Fin 4).rev = 0 := rfl

theorem last_eq_three : Fin.last 3 = (3 : Fin 4) := rfl

theorem rotate180_setCell (b : Board) (x y : Fin 4) (v : Option Square) :
    (b.setCell x y v).rotate180 = b.rotate180.setCell x.rev y.rev v := by
  apply Board.extCells
  intro y' x'
  simp only [Board.rotate180, Board.setCell, rev_eq_comm]

theorem rotate180_new : Board.new.rotate180 = Board.new := rfl

theorem rotate180_overlay :
    ∀ (l : List ((Fin 4 × Fin 4) × Square)) (b : Board),
      (b.overlay l).rotate180 =
        b.rotate180.overlay (l.map fun e => (rotCoord e.1, e.2)) := by
  intro l
  induction l with
  | nil => intro b; rfl
  | cons e rest ih =>
    intro b
    obtain ⟨⟨x, y⟩, c⟩ := e
    show (Board.overlay (b.setCell x y (some c)) rest).rotate180 = _
    rw [ih, rotate180_setCell]
    rfl

theorem readLine_rotate_left (b : Board) (o : Fin 4) :
    b.rotate180.readLine .Left o = b.readLine .Right o.rev := by
  simp [Board.readLine, Board.coord_iter, Board.rotate180, rev_zero, rev_one, rev_two,
    rev_three, last_eq_three]

theorem readLine_rotate_up (b : Board) (o : Fin 4) :
    b.rotate180.readLine .Up o = b.readLine .Down o.rev := by
  simp [Board.readLine, Board.coord_iter, Board.rotate180, rev_zero, rev_one, rev_two,
    rev_three, last_eq_three]

theorem coordIter_rot_left (o : Fin 4) :
    (Board.coord_iter .Left o).map rotCoord = Board.coord_iter .Right o.rev := by
  simp [Board.coord_iter, rotCoord, rev_zero, rev_one, rev_two, rev_three, last_eq_three]

theorem coordIter_rot_up (o : Fin 4) :
    (Board.coord_iter .Up o).map rotCoord = Board.coord_iter .Down o.rev := by
  simp [Board.coord_iter, rotCoord, rev_zero, rev_one, rev_two, rev_three, last_eq_three]

theorem lineEntries_rot_left (b : Board) (o : Fin 4) :
    (b.rotate180.lineEntries .Left o).map (fun e => (rotCoord e.1, e.2)) =
      b.lineEntries .Right o.rev := by
  rw [Board.lineEntries, Board.lineEntries, readLine_rotate_left, ← coordIter_rot_left,
    List.zip_map_left]
  simp [Prod.map]

theorem lineEntries_rot_up (b : Board) (o : Fin 4) :
    (b.rotate180.lineEntries .Up o).map (fun e => (rotCoord e.1, e.2)) =
      b.lineEntries .Down o.rev := by
  rw [Board.lineEntries, Board.lineEntries, readLine_rotate_up, ← coordIter_rot_up,
    List.zip_map_left]
  simp [Prod.map]

theorem setCell_comm (b : Board) (x1 y1 x2 y2 : Fin 4) (v w : Option Square)
    (h : ((x1 : Fin 4), (y1 : Fin 4)) ≠ (x2, y2)) :
    (b.setCell x1 y1 v).setCell x2 y2 w = (b.setCell x2 y2 w).setCell x1 y1 v := by
  apply Board.extCells
  intro y x
  simp only [Board.setCell]
  by_cases h2 : y = y2 ∧ x = x2 <;> by_cases h1 : y = y1 ∧ x = x1
  · refine absurd ?_ h
    have hx : x1 = x2 := h1.2.symm.trans h2.2
    have hy : y1 = y2 := h1.1.symm.trans h2.1
    rw [hx, hy]
  · rw [if_pos h2, if_neg h1, if_pos h2]
  · rw [if_neg h2, if_pos h1, if_pos h1]
  · rw [if_neg h2, if_neg h1, if_neg h1, if_neg h2]

theorem overlay_setCell_of_not_mem :
    ∀ (l : List ((Fin 4 × Fin 4) × Square)) (b : Board) (x y : Fin 4) (v : Option Square),
      (x, y) ∉ l.map Prod.fst →
      Board.overlay (b.setCell x y v) l = (b.overlay l).setCell x y v := by
  intro l
  induction l with
  | nil => intro b x y v _; rfl
  | cons e rest ih =>
    intro b x y v h
    obtain ⟨⟨x2, y2⟩, c⟩ := e
    simp only [List.map_cons, List.mem_cons, not_or] at h
    show Board.overlay ((b.setCell x y v).setCell x2 y2 (some c)) rest = _
    rw [setCell_comm b x y x2 y2 v (some c) h.1]
    exact ih _ x y v h.2

theorem overlay_append :
    ∀ (l1 l2 : List ((Fin 4 × Fin 4) × Square)) (b : Board),
      b.overlay (l1 ++ l2) = (b.overlay l1).overlay l2 := by
  intro l1
  induction l1 with
  | nil => intro l2 b; rfl
  | cons e rest ih =>
    intro l2 b
    obtain ⟨⟨x, y⟩, c⟩ := e
    exact ih l2 (b.setCell x y (some c))

theorem overlay_append_comm :
    ∀ (l1 l2 : List ((Fin 4 × Fin 4) × Square)) (b : Board),
      (∀ p ∈ l1.map Prod.fst, p ∉ l2.map Prod.fst) →
      b.overlay (l1 ++ l2) = b.overlay (l2 ++ l1) := by
  intro l1
  induction l1 with
  | nil => intro l2 b _; rw [List.nil_append, List.append_nil]
  | cons e rest ih =>
    intro l2 b h
    obtain ⟨⟨x, y⟩, c⟩ := e
    have hhead : ((x, y) : Fin 4 × Fin 4) ∉ l2.map Prod.fst := by
      apply h
      simp
    have htail : ∀ p ∈ rest.map Prod.fst, p ∉ l2.map Prod.fst := by
      intro p hp
      apply h
      simp only [List.map_cons, List.mem_cons]
      exact Or.inr hp
    show Board.overlay (b.setCell x y (some c)) (rest ++ l2) = _
    rw [ih l2 (b.setCell x y (some c)) htail, overlay_append,
      overlay_setCell_of_not_mem l2 b x y (some c) hhead, overlay_append]
    rfl

theorem overlay_swap (E : Board) (A B : List ((Fin 4 × Fin 4) × Square))
    (h : ∀ p ∈ A.map Prod.fst, p ∉ B.map Prod.fst) :
    (E.overlay A).overlay B = (E.overlay B).overlay A := by
  rw [← overlay_append, overlay_append_comm A B E h, overlay_append]

theorem overlay_reverse4 (E : Board) (A B C D : List ((Fin 4 × Fin 4) × Square))
    (hAB : ∀ p ∈ A.map Prod.fst, p ∉ B.map Prod.fst)
    (hAC : ∀ p ∈ A.map Prod.fst, p ∉ C.map Prod.fst)
    (hAD : ∀ p ∈ A.map Prod.fst, p ∉ D.map Prod.fst)
    (hBC : ∀ p ∈ B.map Prod.fst, p ∉ C.map Prod.fst)
    (hBD : ∀ p ∈ B.map Prod.fst, p ∉ D.map Prod.fst)
    (hCD : ∀ p ∈ C.map Prod.fst, p ∉ D.map Prod.fst) :
    (((E.overlay A).overlay B).overlay C).overlay D =
      (((E.overlay D).overlay C).overlay B).overlay A := by
  rw [overlay_swap ((E.overlay A).overlay B) C D hCD,
    overlay_swap (E.overlay A) B D hBD,
    overlay_swap E A D hAD,
    overlay_swap ((E.overlay D).overlay A) B C hBC,
    overlay_swap (E.overlay D) A C hAC,
    overlay_swap ((E.overlay D).overlay C) A B hAB]

theorem mem_keys_zip {l1 : List (Fin 4 × Fin 4)} {l2 : List Square} {p : Fin 4 × Fin 4}
    (h : p ∈ (l1.zip l2).map Prod.fst) : p ∈ l1 := by
  obtain ⟨⟨a, c⟩, hmem, rfl⟩ := List.mem_map.mp h
  exact (List.of_mem_zip hmem).1

theorem coord_iter_disjoint (d : Move) :
    ∀ o o' : Fin 4, o ≠ o' →
      ∀ p ∈ Board.coord_iter d o, p ∉ Board.coord_iter d o' := by
  intro o o' h
  cases d <;> fin_cases o <;> fin_cases o' <;>
    first
      | (exact absurd rfl h)
      | decide

theorem lineEntries_disjoint (b : Board) (d : Move) (i j : Fin 4) (hij : i ≠ j) :
    ∀ p ∈ (b.lineEntries d i).map Prod.fst, p ∉ (b.lineEntries d j).map Prod.fst := by
  intro p hp hq
  exact coord_iter_disjoint d i j hij p (mem_keys_zip hp) (mem_keys_zip hq)

/-- Claim C5: applying `apply_move` with Left to the 180-degree-rotated
board and rotating the result back equals applying `apply_move` with Right
to the original board, and likewise Up versus Down: the four directions
realise one collapse algorithm through coordinate remapping. -/
theorem apply_move_directional_symmetry :
    ∀ b : Board,
      (Board.apply_move b.rotate180 .Left).map Board.rotate180 =
        Board.apply_move b .Right ∧
      (Board.apply_move b.rotate180 .Up).map Board.rotate180 =
        Board.apply_move b .Down := by
  intro b
  constructor
  · rw [apply_move_eq, apply_move_eq, Option.map_some']
    rw [rotate180_overlay, rotate180_overlay, rotate180_overlay, rotate180_overlay,
      rotate180_new, lineEntries_rot_left, lineEntries_rot_left, lineEntries_rot_left,
      lineEntries_rot_left, rev_zero, rev_one, rev_two, rev_three]
    exact congrArg some (overlay_reverse4 Board.new _ _ _ _
      (lineEntries_disjoint b .Right 0 1 (by decide))
      (lineEntries_disjoint b .Right 0 2 (by decide))
      (lineEntries_disjoint b .Right 0 3 (by decide))
      (lineEntries_disjoint b .Right 1 2 (by decide))
      (lineEntries_disjoint b .Right 1 3 (by decide))
      (lineEntries_disjoint b .Right 2 3 (by decide))).symm
  · rw [apply_move_eq, apply_move_eq, Option.map_some']
    rw [rotate180_overlay, rotate180_overlay, rotate180_overlay, rotate180_overlay,
      rotate180_new, lineEntries_rot_up, lineEntries_rot_up, lineEntries_rot_up,
      lineEntries_rot_up, rev_zero, rev_one, rev_two, rev_three]
    exact congrArg some (overlay_reverse4 Board.new _ _ _ _
      (lineEntries_disjoint b .Down 0 1 (by decide))
      (lineEntries_disjoint b .Down 0 2 (by decide))
      (lineEntries_disjoint b .Down 0 3 (by decide))
      (lineEntries_disjoint b .Down 1 2 (by decide))
      (lineEntries_disjoint b .Down 1 3 (by decide))
      (lineEntries_disjoint b .Down 2 3 (by decide))).symm

theorem cellList_nodup : cellList.Nodup := by decide

/-- Counting lemma: flipping one predicate value from false to true on a
duplicate-free list grows the filtered length by one. -/
theorem length_filter_flip :
    ∀ (l : List (Fin 4 × Fin 4)) (p q : Fin 4 × Fin 4 → Bool) (a : Fin 4 × Fin 4),
      l.Nodup → a ∈ l → p a = false → q a = true →
      (∀ x ∈ l, x ≠ a → p x = q x) →
      (l.filter q).length = (l.filter p).length + 1 := by
  intro l
  induction l with
  | nil => intro p q a _ h; cases h
  | cons x t ih =>
    intro p q a hnd hmem hpa hqa hagree
    rcases List.mem_cons.mp hmem with rfl | hat
    · have hxnot : a ∉ t := (List.nodup_cons.mp hnd).1
      have hsame : t.filter q = t.filter p := by
        apply List.filter_congr
        intro y hy
        exact (hagree y (List.mem_cons_of_mem _ hy) fun hya => hxnot (hya ▸ hy)).symm
      simp [List.filter_cons, hpa, hqa, hsame]
    · have hxa : x ≠ a := fun hxe => (List.nodup_cons.mp hnd).1 (hxe ▸ hat)
      have hx : p x = q x := hagree x (List.mem_cons_self x t) hxa
      have ht : ∀ y ∈ t, y ≠ a → p y = q y := fun y hy =>
        hagree y (List.mem_cons_of_mem _ hy)
      have hrec := ih p q a (List.nodup_cons.mp hnd).2 hat hpa hqa ht
      rw [List.filter_cons, List.filter_cons, ← hx]
      cases hpx : p x
      · simpa using hrec
      · simp [hrec]

theorem freeSpaces_cell_isNone {b : Board} {p : Fin 4 × Fin 4}
    (h : p ∈ b.freeSpaces) : (b.rows p.2 p.1).isNone = true :=
  (List.mem_filter.mp h).2

/-- Claim C6: on a board with at least one empty cell, `add_square` (for
every in-range random index and every coin flip) occupies exactly one more
cell and leaves every previously occupied cell unchanged; on a full board
it returns the board unchanged. -/
theorem add_square_spec :
    ∀ (b : Board) (i : Nat) (coin : Bool),
      (b.freeSpaces ≠ [] → i < b.freeSpaces.length →
        (b.add_square i coin).occupiedCount = b.occupiedCount + 1 ∧
        ∀ y x, (b.rows y x).isSome = true →
          (b.add_square i coin).rows y x = b.rows y x) ∧
      (b.freeSpaces = [] → b.add_square i coin = b) := by
  intro b i coin
  constructor
  · intro hne hi
    obtain ⟨q, hq⟩ : ∃ q, b.freeSpaces[i]? = some q := ⟨_, List.getElem?_eq_getElem hi⟩
    have hqmem : q ∈ b.freeSpaces := List.getElem?_mem hq
    obtain ⟨x0, y0⟩ := q
    have hnone : (b.rows y0 x0).isNone = true := freeSpaces_cell_isNone hqmem
    have hnone' : b.rows y0 x0 = none := Option.isNone_iff_eq_none.mp hnone
    have hempty : ¬ b.freeSpaces.isEmpty = true := fun h => hne (List.isEmpty_iff.mp h)
    have hstep : b.add_square i coin =
        b.setCell x0 y0 (some (if coin then 1 else 0)) := by
      rw [Board.add_square, if_neg hempty, hq]
    constructor
    · rw [hstep, Board.occupiedCount, Board.occupiedCount]
      apply length_filter_flip cellList _ _ (y0, x0) cellList_nodup (mem_cellList y0 x0)
      · simp [hnone']
      · simp [Board.setCell]
      · intro r hr hrne
        obtain ⟨ry, rx⟩ := r
        have hcond : ¬(ry = y0 ∧ rx = x0) := by
          rintro ⟨rfl, rfl⟩
          exact hrne rfl
        simp [Board.setCell, hcond]
    · intro y x hsome
      have hcond : ¬(y = y0 ∧ x = x0) := by
        rintro ⟨rfl, rfl⟩
        rw [hnone'] at hsome
        cases hsome
      rw [hstep]
      simp [Board.setCell, hcond]
  · intro h
    rw [Board.add_square, if_pos (List.isEmpty_iff.mpr h)]

/-- Witness for C6 at concrete inputs: the empty board gains exactly one
occupied cell, and a full board is left unchanged. -/
theorem add_square_spec_witness :
    (Board.new.add_square 0 true).occupiedCount = Board.new.occupiedCount + 1 ∧
    boardFull.add_square 0 true = boardFull :=
  ⟨((add_square_spec Board.new 0 true).1 (by decide) (by decide)).1,
   (add_square_spec boardFull 0 true).2 (by decide)⟩

/-- Claim C7: if the recorded terminal has fewer than 4 x 5 = 20 columns
or fewer than 4 rows, `draw_board` fails with the "terminal too small"
error and performs no output: the renderer comes back untouched, its
output stream in particular. -/
theorem draw_board_too_small :
    ∀ (r : Renderer) (b : Board), r.size.1 < 4 * 5 ∨ r.size.2 < 4 →
      draw_board r b = some (r, some tooSmallMsg) ∧
      ((draw_board r b).map fun st => st.1.output) = some r.output := by
  intro r b h
  rw [draw_board, if_pos h]
  exact ⟨rfl, rfl⟩

/-- Witness for C7: a 10-column, 2-row terminal rejects the draw and emits
nothing. -/
theorem draw_board_too_small_witness :
    draw_board rendererSmall Board.new = some (rendererSmall, some tooSmallMsg) :=
  (draw_board_too_small rendererSmall Board.new (Or.inl (by decide))).1

/-- Claim C10: an error return of `draw_board` (the terminal-too-small
failure is the only one) hands the renderer back exactly as it was:
snapshot and tracked cursor row included, so the failed draw is atomic. -/
theorem draw_board_error_preserves_state :
    ∀ (r : Renderer) (b : Board) (r' : Renderer) (msg : String),
      draw_board r b = some (r', some msg) →
      r' = r ∧ r'.old_board = r.old_board ∧ r'.cursor_row = r.cursor_row := by
  intro r b r' msg h
  rw [draw_board] at h
  by_cases hsz : r.size.1 < 4 * 5 ∨ r.size.2 < 4
  · rw [if_pos hsz] at h
    have hr : r = r' := congrArg Prod.fst (Option.some.inj h)
    exact ⟨hr.symm, by rw [hr], by rw [hr]⟩
  · rw [if_neg hsz] at h
    exfalso
    cases hob : r.old_board with
    | some ob =>
      rw [hob] at h
      dsimp only at h
      cases hf : cellList.foldlM (diffStep ob b) (r.output, r.cursor_row) with
      | none => rw [hf] at h; simp at h
      | some st => rw [hf] at h; simp at h
    | none =>
      rw [hob] at h
      dsimp only at h
      simp only [Option.bind_eq_bind, Option.bind_eq_some, Option.pure_def,
        Option.some.injEq, Prod.mk.injEq] at h
      obtain ⟨_, _, _, _, _, _, _, _, _, hcontra⟩ := h
      cases hcontra

/-- Witness for C10: the failed draw on the small terminal leaves snapshot
and cursor row untouched. -/
theorem draw_board_error_preserves_state_witness :
    (rendererSmall, some tooSmallMsg).1.old_board = rendererSmall.old_board ∧
    (rendererSmall, some tooSmallMsg).1.cursor_row = rendererSmall.cursor_row := by
  have h := draw_board_error_preserves_state rendererSmall Board.new rendererSmall
    tooSmallMsg (by decide)
  exact ⟨h.2.1, h.2.2⟩

/-- A fold whose every step leaves the state unchanged returns the initial
state. -/
theorem foldlM_silent
    (step : (List Cmd × Nat) → (Fin 4 × Fin 4) → Option (List Cmd × Nat)) :
    ∀ l : List (Fin 4 × Fin 4),
      (∀ x ∈ l, ∀ st, step st x = some st) →
      ∀ st, l.foldlM step st = some st := by
  intro l
  induction l with
  | nil => intro _ st; rfl
  | cons x t ih =>
    intro h st
    rw [List.foldlM_cons, h x (List.mem_cons_self x t) st]
    simp only [Option.bind_eq_bind, Option.some_bind]
    exact ih (fun y hy => h y (List.mem_cons_of_mem _ hy)) st

/-- A fold over a duplicate-free list whose steps are all silent except at
one element acts exactly as that element's step. -/
theorem foldlM_single
    (step : (List Cmd × Nat) → (Fin 4 × Fin 4) → Option (List Cmd × Nat)) :
    ∀ (l : List (Fin 4 × Fin 4)) (a : Fin 4 × Fin 4),
      a ∈ l → l.Nodup →
      (∀ x ∈ l, x ≠ a → ∀ st, step st x = some st) →
      ∀ st, l.foldlM step st = step st a := by
  intro l
  induction l with
  | nil => intro a h; cases h
  | cons x t ih =>
    intro a hmem hnd hsilent st
    rcases List.mem_cons.mp hmem with rfl | hat
    · rw [List.foldlM_cons]
      have htail : ∀ y ∈ t, ∀ st', step st' y = some st' := by
        intro y hy st'
        have hya : y ≠ a := fun hh => (List.nodup_cons.mp hnd).1 (hh ▸ hy)
        exact hsilent y (List.mem_cons_of_mem _ hy) hya st'
      cases hs : step st a with
      | none => rfl
      | some s' =>
        simp only [Option.bind_eq_bind, Option.some_bind]
        exact foldlM_silent step t htail s'
    · have hxa : x ≠ a := fun hh => (List.nodup_cons.mp hnd).1 (hh ▸ hat)
      rw [List.foldlM_cons, hsilent x (List.mem_cons_self x t) hxa st]
      simp only [Option.bind_eq_bind, Option.some_bind]
      exact ih a hat (List.nodup_cons.mp hnd).2
        (fun y hy => hsilent y (List.mem_cons_of_mem _ hy)) st

/-- Claim C8: when the renderer holds a snapshot and the new board differs
from it in exactly one cell, the incremental redraw appends the
cursor-positioning moves and the draw (or blank-out) commands of exactly
that cell — zero output for every unchanged cell — records that cell's row
as the cursor row and stores the new snapshot. -/
theorem draw_board_single_diff :
    ∀ (r : Renderer) (ob b : Board) (y0 x0 : Fin 4) (cc : List Cmd),
      r.old_board = some ob →
      ¬(r.size.1 < 4 * 5 ∨ r.size.2 < 4) →
      ob.rows y0 x0 ≠ b.rows y0 x0 →
      (∀ p ∈ cellList, p ≠ (y0, x0) → ob.rows p.1 p.2 = b.rows p.1 p.2) →
      cellOutput (b.rows y0 x0) = some cc →
      draw_board r b = some
        ({ r with
            output := r.output ++ vertCmds r.cursor_row y0.val ++
              [Cmd.moveToColumn (5 * x0.val)] ++ cc,
            cursor_row := y0.val,
            old_board := some b }, none) := by
  intro r ob b y0 x0 cc hob hsz hne hsame hcc
  rw [draw_board, if_neg hsz, hob]
  dsimp only
  have hfold : cellList.foldlM (diffStep ob b) (r.output, r.cursor_row) =
      diffStep ob b (r.output, r.cursor_row) (y0, x0) := by
    apply foldlM_single (diffStep ob b) cellList (y0, x0) (mem_cellList y0 x0)
      cellList_nodup
    intro p hp hpa st
    rw [diffStep, if_pos (hsame p hp hpa)]
  rw [hfold, diffStep, if_neg hne]
  rw [show cellOutput (b.rows (y0, x0).1 (y0, x0).2) = some cc from hcc]
  rfl

/-- Witness for C8: starting from an empty-board snapshot, drawing a board
with a single new `2` tile at the top-left emits only that cell's column
move and draw commands. -/
theorem draw_board_single_diff_witness :
    draw_board rendererDiff boardOneTile = some
      ({ rendererDiff with
          output := [Cmd.moveToColumn 0, Cmd.setBackgroundColor (.rgb 238 228 218),
            Cmd.setForegroundColor .black, Cmd.write (format5 2), Cmd.resetColor],
          cursor_row := 0,
          old_board := some boardOneTile }, none) := by
  have h := draw_board_single_diff rendererDiff Board.new boardOneTile 0 0
    [Cmd.setBackgroundColor (.rgb 238 228 218), Cmd.setForegroundColor .black,
      Cmd.write (format5 2), Cmd.resetColor]
    rfl (by decide) (by decide) (by decide) (by rfl)
  exact h

/-- Claim C9: a drawn tile of exponent `e ≤ 15` is written as the value
`2^(e+1)` right-justified in a fixed 5-character field, and the cell's
command sequence finishes with the attribute reset, leaving background,
foreground and weight cleared from any starting attribute state. -/
theorem draw_cell_spec :
    ∀ e : Square, e ≤ 15 →
      ∃ bg dark,
        Square.color e = some (bg, dark) ∧
        draw_cell e = some
          ([Cmd.setBackgroundColor bg] ++
            (if dark then [Cmd.setForegroundColor .black]
             else [Cmd.setForegroundColor .white, Cmd.setAttributeBold]) ++
            [Cmd.write (format5 (2 ^ (e + 1))), Cmd.resetColor]) ∧
        (format5 (2 ^ (e + 1))).length = 5 ∧
        (format5 (2 ^ (e + 1))).data =
          List.replicate (5 - (toString (2 ^ (e + 1))).length) ' ' ++
            (toString (2 ^ (e + 1))).data ∧
        ∀ a : Attr,
          (([Cmd.setBackgroundColor bg] ++
            (if dark then [Cmd.setForegroundColor .black]
             else [Cmd.setForegroundColor .white, Cmd.setAttributeBold]) ++
            [Cmd.write (format5 (2 ^ (e + 1))), Cmd.resetColor]).foldl applyCmd a) =
            Attr.cleared := by
  intro e he
  interval_cases e <;>
    exact ⟨_, _, rfl, rfl, by decide, by decide, fun a => rfl⟩

/-- Witness for C9 at exponent 0: the palette entry exists and the field is
5 characters wide. -/
theorem draw_cell_spec_witness :
    (Square.color 0).isSome = true ∧ (format5 (2 ^ (0 + 1))).length = 5 := by
  obtain ⟨bg, dark, hc, _, hlen, _, _⟩ := draw_cell_spec 0 (by decide)
  exact ⟨by rw [hc]; rfl, hlen⟩

end Play2048
